import Mathlib

/-!
# SongCore: registries, root-path configuration and the song loader's candidate set

A shallow embedding of `src/src/SongCore.cpp` (namespace `SongCore::API`) and of the
declarations of `src/include/SongLoader/SongLoader.hpp`.

Conventions of the embedding:

* a `std::vector<T>` / `List_1<T>` is a `List T`; an iterator into it is the index of
  the element it points to, `end()` being the length;
* a `std::string` / `std::string_view` is a `String`;
* an `UnorderedEventCallback` is represented by the log of the argument tuples it was
  invoked with, oldest first;
* a `std::filesystem::path` is a value of a parameter type `P`; equality on it is
  decidable and, where `operator<=>` is used, it carries a linear order.
-/

namespace SongCore

/-! ## Standard algorithms on vectors -/

/-- The iterator returned by `std::find_if(v.begin(), v.end(), pred)`: the index of the
first element satisfying `pred`, or `v.size()` (that is `end()`) when there is none. -/
def find_if {α : Type} (pred : α → Bool) : List α → Nat
  | [] => 0
  | x :: xs => if pred x then 0 else find_if pred xs + 1

/-- The iterator returned by `std::find(v.begin(), v.end(), value)`. -/
def find {α : Type} [DecidableEq α] (v : List α) (value : α) : Nat :=
  find_if (fun x => decide (x = value)) v

/-- The vector after `v.erase(itr)`: the element at index `itr` is removed. -/
def erase {α : Type} (v : List α) (itr : Nat) : List α :=
  v.eraseIdx itr

/-- The vector after `v.emplace_back(x)`. -/
def emplace_back {α : Type} (v : List α) (x : α) : List α :=
  v ++ [x]

namespace API

/-! ## Capabilities -/

namespace Capabilities

/-- The kinds of event `_capabilitiesUpdated` is invoked with. -/
inductive CapabilityEventKind where
  | Registered
  | Unregistered
  deriving DecidableEq, Repr

/-- The C function `tolower` in the "C" locale: the letters `A`..`Z` are mapped to
`a`..`z`, every other character is returned as it is. -/
def tolower (c : Char) : Char :=
  if 'A' ≤ c ∧ c ≤ 'Z' then Char.ofNat (c.toNat + 32) else c

/-- One iteration of the loop of `sanitize`: a space is skipped, any other character
is pushed back in lower case. -/
def sanitizeStep (sanitized : List Char) (c : Char) : List Char :=
  if c = ' ' then sanitized else sanitized ++ [tolower c]

/-- `Capabilities::sanitize`: drops the spaces and lower-cases what remains. -/
def sanitize (capability : String) : String :=
  String.mk (capability.data.foldl sanitizeStep [])

/-- The static state of the namespace: the registered capabilities and the invocations
of `_capabilitiesUpdated` so far. -/
structure State where
  _registeredCapabilities : List String
  _capabilitiesUpdated : List (String × CapabilityEventKind)
  deriving DecidableEq, Repr

/-- `Capabilities::RegisterCapability`. -/
def RegisterCapability (s : State) (capability : String) : State :=
  let sanitized := sanitize capability
  let itr := find s._registeredCapabilities sanitized
  if itr = s._registeredCapabilities.length then
    { _registeredCapabilities := emplace_back s._registeredCapabilities sanitized
      _capabilitiesUpdated :=
        s._capabilitiesUpdated ++ [(capability, CapabilityEventKind.Registered)] }
  else
    s

/-- `Capabilities::UnregisterCapability`. -/
def UnregisterCapability (s : State) (capability : String) : State :=
  let sanitized := sanitize capability
  let itr := find s._registeredCapabilities sanitized
  if itr ≠ s._registeredCapabilities.length then
    { _registeredCapabilities := erase s._registeredCapabilities itr
      _capabilitiesUpdated :=
        s._capabilitiesUpdated ++ [(capability, CapabilityEventKind.Unregistered)] }
  else
    s

/-- `Capabilities::IsCapabilityRegistered`. -/
def IsCapabilityRegistered (s : State) (capability : String) : Bool :=
  let sanitized := sanitize capability
  let itr := find s._registeredCapabilities sanitized
  decide (itr ≠ s._registeredCapabilities.length)

/-- A call of one of the two functions that write the registry. -/
inductive Call where
  | Register (capability : String)
  | Unregister (capability : String)
  deriving DecidableEq, Repr

/-- The state after one call. -/
def Call.apply (s : State) : Call → State
  | Call.Register capability => RegisterCapability s capability
  | Call.Unregister capability => UnregisterCapability s capability

/-- The state after a sequence of calls, starting from the empty registry with no event
fired. -/
def runCalls (calls : List Call) : State :=
  calls.foldl Call.apply { _registeredCapabilities := [], _capabilitiesUpdated := [] }

/-- Two characters that are the same or are the two cases of one ASCII letter: one is
an upper-case letter `A`..`Z` and the other the lower-case letter 32 code points above
it. -/
def sameLetter (c d : Char) : Prop :=
  c = d ∨ (c.isUpper = true ∧ d.toNat = c.toNat + 32) ∨
    (d.isUpper = true ∧ c.toNat = d.toNat + 32)

/-- Two character sequences that differ only in space characters and in the case of
ASCII letters: one is obtained from the other by inserting or deleting spaces and by
changing the case of letters. -/
inductive DifferOnlyInSpacesAndCase : List Char → List Char → Prop where
  | done : DifferOnlyInSpacesAndCase [] []
  | spaceLeft {as bs : List Char} :
      DifferOnlyInSpacesAndCase as bs → DifferOnlyInSpacesAndCase (' ' :: as) bs
  | spaceRight {as bs : List Char} :
      DifferOnlyInSpacesAndCase as bs → DifferOnlyInSpacesAndCase as (' ' :: bs)
  | letter {c d : Char} {as bs : List Char} :
      sameLetter c d → DifferOnlyInSpacesAndCase as bs →
      DifferOnlyInSpacesAndCase (c :: as) (d :: bs)

end Capabilities

/-! ## PlayButton -/

namespace PlayButton

/-- `PlayButtonDisablingModInfo`: the id of a mod that disables the play button and the
reason it gives. -/
structure PlayButtonDisablingModInfo where
  modID : String
  reason : String
  deriving DecidableEq, Repr

/-- The static state of the namespace: the disabling mod infos and the invocations of
`_playButtonDisablingModsChangedEvent` so far, each with the list it was passed. -/
structure State where
  _disablingModInfos : List PlayButtonDisablingModInfo
  _playButtonDisablingModsChangedEvent : List (List PlayButtonDisablingModInfo)
  deriving DecidableEq, Repr

/-- `PlayButton::DisablePlayButton`. -/
def DisablePlayButton (s : State) (modID reason : String) : State :=
  let itr := find_if (fun x => decide (x.modID = modID)) s._disablingModInfos
  if itr = s._disablingModInfos.length then
    let infos := emplace_back s._disablingModInfos { modID := modID, reason := reason }
    { _disablingModInfos := infos
      _playButtonDisablingModsChangedEvent :=
        s._playButtonDisablingModsChangedEvent ++ [infos] }
  else
    s

/-- `PlayButton::EnablePlayButton`. -/
def EnablePlayButton (s : State) (modID : String) : State :=
  let itr := find_if (fun x => decide (x.modID = modID)) s._disablingModInfos
  if itr ≠ s._disablingModInfos.length then
    let infos := erase s._disablingModInfos itr
    { _disablingModInfos := infos
      _playButtonDisablingModsChangedEvent :=
        s._playButtonDisablingModsChangedEvent ++ [infos] }
  else
    s

/-- `PlayButton::GetPlayButtonDisablingModInfos`. -/
def GetPlayButtonDisablingModInfos (s : State) : List PlayButtonDisablingModInfo :=
  s._disablingModInfos

/-- A call of one of the two functions that write the list. -/
inductive Call where
  | Disable (modID reason : String)
  | Enable (modID : String)
  deriving DecidableEq, Repr

/-- The state after one call. -/
def Call.apply (s : State) : Call → State
  | Call.Disable modID reason => DisablePlayButton s modID reason
  | Call.Enable modID => EnablePlayButton s modID

/-- The state after a sequence of calls, starting from the empty list with no event
fired. -/
def runCalls (calls : List Call) : State :=
  calls.foldl Call.apply
    { _disablingModInfos := [], _playButtonDisablingModsChangedEvent := [] }

end PlayButton

/-! ## Characteristics -/

namespace Characteristics

/-- The kinds of event `_characteristicsUpdatedEvent` is invoked with. -/
inductive CharacteristicEventKind where
  | Registered
  | Unregistered
  deriving DecidableEq, Repr

/-- The fields of a `BeatmapCharacteristicSO` object that the registry reads or
writes. -/
structure BeatmapCharacteristicSO where
  serializedName : String
  hideFlags : Nat
  deriving DecidableEq, Repr

/-- The state the namespace works on. A `BeatmapCharacteristicSO*` is an address
(`Nat`); `objects` gives the object stored at each address, `_registeredCharacteristics`
is the list of registered pointers and `_characteristicsUpdatedEvent` the invocations
of the event so far. -/
structure State where
  objects : Nat → BeatmapCharacteristicSO
  _registeredCharacteristics : List Nat
  _characteristicsUpdatedEvent : List (Nat × CharacteristicEventKind)

/-- `Characteristics::GetCharacteristicBySerializedName`: the first registered pointer
whose object has the given `serializedName`, or `none` for `nullptr`. -/
def GetCharacteristicBySerializedName (s : State) (serializedName : String) : Option Nat :=
  s._registeredCharacteristics.find?
    (fun x => decide ((s.objects x).serializedName = serializedName))

/-- `Characteristics::RegisterCustomCharacteristic`. `DontUnloadUnusedAsset` is the
value of `UnityEngine::HideFlags::DontUnloadUnusedAsset`. The condition of the `if` is
the pointer returned by the lookup, which is true when it is not null. -/
def RegisterCustomCharacteristic (DontUnloadUnusedAsset : Nat) (s : State)
    (characteristic : Nat) : State :=
  let s1 : State :=
    { s with
      objects := fun a =>
        if a = characteristic then
          { s.objects a with hideFlags := (s.objects a).hideFlags ||| DontUnloadUnusedAsset }
        else s.objects a }
  if (GetCharacteristicBySerializedName s1 (s1.objects characteristic).serializedName).isSome then
    { s1 with
      _registeredCharacteristics := s1._registeredCharacteristics ++ [characteristic]
      _characteristicsUpdatedEvent :=
        s1._characteristicsUpdatedEvent ++ [(characteristic, CharacteristicEventKind.Registered)] }
  else
    s1

end Characteristics

/-! ## Loading: the configured root paths -/

namespace Loading

/-- The fields of the global `config` that the path functions read or write. -/
structure Config (P : Type) where
  PreferredCustomLevelPath : P
  RootCustomLevelPaths : List P
  PreferredCustomWIPLevelPath : P
  RootCustomWIPLevelPaths : List P
  deriving DecidableEq, Repr

/-- The state the path functions work on: the global `config` and the number of calls
of `SaveConfig()` made so far. -/
structure State (P : Type) where
  config : Config P
  saveConfigCalls : Nat
  deriving DecidableEq, Repr

/-- `SaveConfig()`: persists the configuration; the embedding counts the call. -/
def SaveConfig {P : Type} (s : State P) : State P :=
  { s with saveConfigCalls := s.saveConfigCalls + 1 }

/-- The vector bound to `targetPaths` by
`wipPath ? config.RootCustomWIPLevelPaths : config.RootCustomLevelPaths`. -/
def targetPaths {P : Type} (s : State P) (wipPath : Bool) : List P :=
  if wipPath then s.config.RootCustomWIPLevelPaths else s.config.RootCustomLevelPaths

/-- A write through the reference `targetPaths`. -/
def setTargetPaths {P : Type} (s : State P) (wipPath : Bool) (v : List P) : State P :=
  if wipPath then { s with config := { s.config with RootCustomWIPLevelPaths := v } }
  else { s with config := { s.config with RootCustomLevelPaths := v } }

/-- `Loading::GetPreferredCustomLevelPath`. -/
def GetPreferredCustomLevelPath {P : Type} (s : State P) : P :=
  s.config.PreferredCustomLevelPath

/-- `Loading::GetRootCustomLevelPaths`. -/
def GetRootCustomLevelPaths {P : Type} (s : State P) : List P :=
  s.config.RootCustomLevelPaths

/-- `Loading::GetPreferredCustomWIPLevelPath`. -/
def GetPreferredCustomWIPLevelPath {P : Type} (s : State P) : P :=
  s.config.PreferredCustomWIPLevelPath

/-- `Loading::GetRootCustomWIPLevelPaths`. -/
def GetRootCustomWIPLevelPaths {P : Type} (s : State P) : List P :=
  s.config.RootCustomWIPLevelPaths

/-- `Loading::AddLevelPath`. -/
def AddLevelPath {P : Type} [DecidableEq P] (s : State P) (path : P) (wipPath : Bool) :
    State P :=
  let itr := find (targetPaths s wipPath) path
  if itr = (targetPaths s wipPath).length then
    SaveConfig (setTargetPaths s wipPath (emplace_back (targetPaths s wipPath) path))
  else
    s

/-- `Loading::RemoveLevelPath`. -/
def RemoveLevelPath {P : Type} [DecidableEq P] (s : State P) (path : P) (wipPath : Bool) :
    State P :=
  let itr := find (targetPaths s wipPath) path
  if itr ≠ (targetPaths s wipPath).length then
    SaveConfig (setTargetPaths s wipPath (erase (targetPaths s wipPath) itr))
  else
    s

end Loading

end API

/-! ## The song loader -/

namespace SongLoader
namespace RuntimeSongLoader

/-- `RuntimeSongLoader::CUSTOM_LEVEL_PREFIX_ID`. -/
def CUSTOM_LEVEL_PREFIX_ID : String := "custom_level_"

/-- `RuntimeSongLoader::CUSTOM_LEVEL_PACK_PREFIX_ID`. -/
def CUSTOM_LEVEL_PACK_PREFIX_ID : String := "custom_levelPack_"

/-- `RuntimeSongLoader::LevelPathAndWip`: the level path and WIP status of a song
before it got loaded. -/
structure LevelPathAndWip (P : Type) where
  levelPath : P
  isWip : Bool
  deriving DecidableEq, Repr

/-- `LevelPathAndWip::operator<=>`: the three-way comparison of the two level paths. -/
def LevelPathAndWip.cmp {P : Type} [LinearOrder P] (self other : LevelPathAndWip P) :
    Ordering :=
  compare self.levelPath other.levelPath

/-- The `a < b` that `std::less<LevelPathAndWip>` evaluates, which the language rewrites
to `(a <=> b) < 0`. -/
def LevelPathAndWip.less {P : Type} [LinearOrder P] (a b : LevelPathAndWip P) : Bool :=
  decide (LevelPathAndWip.cmp a b = Ordering.lt)

/-- What `std::set<LevelPathAndWip>::insert(value)` does to the set, the set being given
by its elements in iteration order: `value` is placed before the first element it is
less than, and is dropped when an element equivalent to it (neither less than the
other) is met first. -/
def set_insert {P : Type} [LinearOrder P] (value : LevelPathAndWip P) :
    List (LevelPathAndWip P) → List (LevelPathAndWip P)
  | [] => [value]
  | x :: xs =>
    if LevelPathAndWip.less value x then value :: x :: xs
    else if LevelPathAndWip.less x value then x :: set_insert value xs
    else x :: xs

/-- Modelled from the spec: the body of `RuntimeSongLoader::CollectLevels`, which is not
among the sources. It fills the set `out` with the candidates it discovers, in scan
order; the result set deduplicates by path using the total ordering of the set. Here
`candidates` are the (path, isWip) entries in the order they are discovered, each
inserted into the `std::set`. -/
def CollectLevels {P : Type} [LinearOrder P] (candidates : List (LevelPathAndWip P))
    (out : List (LevelPathAndWip P)) : List (LevelPathAndWip P) :=
  candidates.foldl (fun acc c => set_insert c acc) out

/-- The failures of a single load, as far as the spec names them for the loader. -/
inductive LoadError where
  | InvalidMetadata
  deriving DecidableEq, Repr

/-- The fields of a loaded level that the identity of the level is built from: its
`id`, its content hash when one could be computed, its WIP status and its path. -/
structure LoadedEntry where
  id : String
  hash : Option String
  isWip : Bool
  path : String
  deriving DecidableEq, Repr

/-- Modelled from the spec: the body of `RuntimeSongLoader::LoadCustomPreviewBeatmapLevel`,
which is not among the sources. A descriptor that failed to parse (`saveDataValid` false)
gives `InvalidMetadata`; otherwise the stable `id` is built as prefix + hash, or as
prefix + sanitized-path when hashing the content is impossible (`contentHash` is
`none`). The prefix is the constant `CUSTOM_LEVEL_PREFIX_ID` of the sources. -/
def LoadCustomPreviewBeatmapLevel (levelPath : String) (isWip : Bool) (saveDataValid : Bool)
    (contentHash : Option String) (sanitizedPath : String) : Except LoadError LoadedEntry :=
  if saveDataValid then
    match contentHash with
    | some hash =>
      Except.ok { id := CUSTOM_LEVEL_PREFIX_ID ++ hash, hash := some hash, isWip := isWip,
                  path := levelPath }
    | none =>
      Except.ok { id := CUSTOM_LEVEL_PREFIX_ID ++ sanitizedPath, hash := none, isWip := isWip,
                  path := levelPath }
  else
    Except.error LoadError.InvalidMetadata

/-- The refresh state of the loader as the spec gives it (`RefreshState`): whether a
refresh is in flight and the shared completion handle `_currentlyLoadingFuture` of the
sources (`none` when there is no pending handle; a handle is identified by a number).
The two counters record how many refreshes (each with its filesystem scan) were started
and how many of them are running. -/
structure RefreshState where
  inProgress : Bool
  _currentlyLoadingFuture : Option Nat
  refreshesStarted : Nat
  refreshesRunning : Nat
  deriving DecidableEq, Repr

/-- The idle state the loader starts in. -/
def RefreshState.idle : RefreshState :=
  { inProgress := false, _currentlyLoadingFuture := none, refreshesStarted := 0,
    refreshesRunning := 0 }

/-- Modelled from the spec: the body of `RuntimeSongLoader::RefreshSongs`, which is not
among the sources. If a refresh is already in flight the call does not start a new one
and returns the existing in-flight completion handle; otherwise a refresh is started
with a completion handle created for it, which is returned. The call is one atomic step
(the flag and the handle are observed and set together). -/
def RefreshSongs (s : RefreshState) (_fullRefresh : Bool) : RefreshState × Option Nat :=
  if s.inProgress then
    (s, s._currentlyLoadingFuture)
  else
    ({ inProgress := true
       _currentlyLoadingFuture := some s.refreshesStarted
       refreshesStarted := s.refreshesStarted + 1
       refreshesRunning := s.refreshesRunning + 1 },
     some s.refreshesStarted)

/-- Modelled from the spec: the end of a refresh, which is part of the missing
`RefreshSongs_internal`. When the logical refresh settles the state is reset to idle. -/
def settle (s : RefreshState) : RefreshState :=
  if s.inProgress then
    { s with inProgress := false, _currentlyLoadingFuture := none
             refreshesRunning := s.refreshesRunning - 1 }
  else
    s

/-- What can happen to the loader: a call of `RefreshSongs` or the settling of the
refresh in flight. -/
inductive RefreshEvent where
  | call (fullRefresh : Bool)
  | settled
  deriving DecidableEq, Repr

/-- One event applied to the refresh state. -/
def RefreshEvent.apply (s : RefreshState) : RefreshEvent → RefreshState
  | RefreshEvent.call fullRefresh => (RefreshSongs s fullRefresh).1
  | RefreshEvent.settled => settle s

/-- The refresh state after a sequence of events, starting idle. -/
def runEvents (events : List RefreshEvent) : RefreshState :=
  events.foldl RefreshEvent.apply RefreshState.idle

end RuntimeSongLoader
end SongLoader

end SongCore

open SongCore SongCore.API
open SongCore.SongLoader.RuntimeSongLoader

/-! ## Facts about the standard algorithms -/

theorem find_if_le_length {α : Type} (pred : α → Bool) (v : List α) :
    find_if pred v ≤ v.length := by
  induction v with
  | nil => simp [find_if]
  | cons x xs ih =>
    by_cases hx : pred x = true
    · simp [find_if, hx]
    · simp [find_if, hx, ih]

theorem find_eq_length_iff {α : Type} [DecidableEq α] (v : List α) (value : α) :
    find v value = v.length ↔ value ∉ v := by
  unfold find
  induction v with
  | nil => simp [find_if]
  | cons x xs ih =>
    by_cases hx : x = value
    · simp [find_if, hx]
    · have hx2 : ¬ value = x := fun h => hx h.symm
      simp [find_if, hx, hx2, ih]

theorem erase_find {α : Type} [DecidableEq α] (v : List α) (value : α) :
    erase v (find v value) = v.erase value := by
  unfold erase find
  induction v with
  | nil => simp [find_if]
  | cons x xs ih =>
    by_cases hx : x = value
    · simp [find_if, hx]
    · have hx2 : ¬ (x == value) = true := by simpa using hx
      simp [find_if, hx, List.erase_cons, hx2, ih]

/-! ## Characteristics -/

/-- C1: `RegisterCustomCharacteristic` evaluated where the claim and the code part. With
an empty registry the characteristic at address 7 (name "Lawless") is not appended and
no event is fired; with a registry that already holds another characteristic of that
name (address 1) it is appended and a `Registered` event is fired. The condition of the
`if` is the opposite of what the claim, and the warning of the `else` branch, say. -/
theorem RegisterCustomCharacteristic_inverted :
    (Characteristics.RegisterCustomCharacteristic 32
        ⟨fun _ => ⟨"Lawless", 0⟩, [], []⟩ 7)._registeredCharacteristics = [] ∧
    (Characteristics.RegisterCustomCharacteristic 32
        ⟨fun _ => ⟨"Lawless", 0⟩, [], []⟩ 7)._characteristicsUpdatedEvent = [] ∧
    (Characteristics.RegisterCustomCharacteristic 32
        ⟨fun _ => ⟨"Lawless", 0⟩, [1], []⟩ 7)._registeredCharacteristics = [1, 7] ∧
    (Characteristics.RegisterCustomCharacteristic 32
        ⟨fun _ => ⟨"Lawless", 0⟩, [1], []⟩ 7)._characteristicsUpdatedEvent =
      [(7, Characteristics.CharacteristicEventKind.Registered)] := by
  decide

/-! ## The order on `LevelPathAndWip` -/

/-- C2: the comparison `a <=> b` of two `LevelPathAndWip` values is the comparison of
their level paths; it is the same whatever the two `isWip` flags are, and two values
with the same level path compare as equivalent whatever their flags. -/
theorem LevelPathAndWip_cmp_levelPath_only {P : Type} [LinearOrder P]
    (a b : LevelPathAndWip P) :
    LevelPathAndWip.cmp a b = compare a.levelPath b.levelPath ∧
    (∀ wa wb : Bool,
      LevelPathAndWip.cmp ⟨a.levelPath, wa⟩ ⟨b.levelPath, wb⟩ = LevelPathAndWip.cmp a b) ∧
    (∀ wa wb : Bool,
      LevelPathAndWip.cmp ⟨a.levelPath, wa⟩ ⟨a.levelPath, wb⟩ = Ordering.eq) := by
  refine ⟨rfl, fun _ _ => rfl, fun _ _ => ?_⟩
  exact compare_eq_iff_eq.mpr rfl

/-! ## Capabilities -/

/-- C4: `RegisterCapability(c)` leaves the registry and the event log unchanged when
`sanitize(c)` is already registered; otherwise the registry is the old one with
`sanitize(c)` appended at its end and the event log is the old one with exactly one
`Registered` event (for `c`) appended. -/
theorem RegisterCapability_spec (s : Capabilities.State) (c : String) :
    Capabilities.RegisterCapability s c =
      if Capabilities.sanitize c ∈ s._registeredCapabilities then s
      else
        { _registeredCapabilities := s._registeredCapabilities ++ [Capabilities.sanitize c]
          _capabilitiesUpdated :=
            s._capabilitiesUpdated ++ [(c, Capabilities.CapabilityEventKind.Registered)] } := by
  unfold Capabilities.RegisterCapability
  by_cases h : Capabilities.sanitize c ∈ s._registeredCapabilities
  · have h2 : ¬ find s._registeredCapabilities (Capabilities.sanitize c)
        = s._registeredCapabilities.length := by
      rw [find_eq_length_iff]; simpa using h
    simp [h, h2]
  · have h2 : find s._registeredCapabilities (Capabilities.sanitize c)
        = s._registeredCapabilities.length := by
      rw [find_eq_length_iff]; exact h
    simp [h, h2, emplace_back]

/-! ## Loading: the configured root paths -/

theorem targetPaths_setTargetPaths {P : Type} (s : Loading.State P) (w : Bool) (v : List P) :
    Loading.targetPaths (Loading.setTargetPaths s w v) w = v := by
  cases w <;> simp [Loading.targetPaths, Loading.setTargetPaths]

theorem targetPaths_SaveConfig {P : Type} (s : Loading.State P) (w : Bool) :
    Loading.targetPaths (Loading.SaveConfig s) w = Loading.targetPaths s w := by
  cases w <;> simp [Loading.targetPaths, Loading.SaveConfig]

theorem AddLevelPath_eq {P : Type} [DecidableEq P] (s : Loading.State P) (p : P) (w : Bool) :
    Loading.AddLevelPath s p w =
      if p ∈ Loading.targetPaths s w then s
      else Loading.SaveConfig
        (Loading.setTargetPaths s w (Loading.targetPaths s w ++ [p])) := by
  unfold Loading.AddLevelPath
  by_cases h : p ∈ Loading.targetPaths s w
  · have h2 : ¬ find (Loading.targetPaths s w) p = (Loading.targetPaths s w).length := by
      rw [find_eq_length_iff]; simpa using h
    simp [h, h2]
  · have h2 : find (Loading.targetPaths s w) p = (Loading.targetPaths s w).length := by
      rw [find_eq_length_iff]; exact h
    simp [h, h2, emplace_back]

theorem RemoveLevelPath_eq {P : Type} [DecidableEq P] (s : Loading.State P) (p : P) (w : Bool) :
    Loading.RemoveLevelPath s p w =
      if p ∈ Loading.targetPaths s w then
        Loading.SaveConfig
          (Loading.setTargetPaths s w ((Loading.targetPaths s w).erase p))
      else s := by
  unfold Loading.RemoveLevelPath
  simp only [erase_find]
  by_cases h : p ∈ Loading.targetPaths s w
  · have h2 : ¬ find (Loading.targetPaths s w) p = (Loading.targetPaths s w).length := by
      rw [find_eq_length_iff]; simpa using h
    simp [h, h2]
  · have h2 : find (Loading.targetPaths s w) p = (Loading.targetPaths s w).length := by
      rw [find_eq_length_iff]; exact h
    simp [h, h2]

theorem targetPaths_AddLevelPath {P : Type} [DecidableEq P] (s : Loading.State P) (p : P)
    (w : Bool) :
    Loading.targetPaths (Loading.AddLevelPath s p w) w =
      if p ∈ Loading.targetPaths s w then Loading.targetPaths s w
      else Loading.targetPaths s w ++ [p] := by
  rw [AddLevelPath_eq]
  by_cases h : p ∈ Loading.targetPaths s w
  · simp [h]
  · simp [h, targetPaths_SaveConfig, targetPaths_setTargetPaths]

theorem targetPaths_RemoveLevelPath {P : Type} [DecidableEq P] (s : Loading.State P) (p : P)
    (w : Bool) :
    Loading.targetPaths (Loading.RemoveLevelPath s p w) w =
      (Loading.targetPaths s w).erase p := by
  rw [RemoveLevelPath_eq]
  by_cases h : p ∈ Loading.targetPaths s w
  · simp [h, targetPaths_SaveConfig, targetPaths_setTargetPaths]
  · simp [h, List.erase_of_not_mem h]

/-- C5: after `AddLevelPath(p, wip)` the target list is the old list `L` with `p`
appended at the end when `p` is not in `L`, and is `L` when `p` is in `L`; `L` is a
prefix of the new list, so the paths of `L` keep their relative order; and when `L` has
no duplicates the new list has none. -/
theorem AddLevelPath_appends_once {P : Type} [DecidableEq P] (s : Loading.State P) (p : P)
    (wip : Bool) :
    Loading.targetPaths (Loading.AddLevelPath s p wip) wip =
      (if p ∈ Loading.targetPaths s wip then Loading.targetPaths s wip
       else Loading.targetPaths s wip ++ [p]) ∧
    Loading.targetPaths s wip <+: Loading.targetPaths (Loading.AddLevelPath s p wip) wip ∧
    ((Loading.targetPaths s wip).Nodup →
      (Loading.targetPaths (Loading.AddLevelPath s p wip) wip).Nodup) := by
  rw [targetPaths_AddLevelPath]
  refine ⟨rfl, ?_, ?_⟩
  · by_cases h : p ∈ Loading.targetPaths s wip
    · simp [h]
    · simp [h]
  · intro hnd
    by_cases h : p ∈ Loading.targetPaths s wip
    · simpa [h] using hnd
    · simp only [h, if_false]
      exact List.Nodup.append hnd (List.nodup_singleton p) (by simpa using h)

/-- The witness of C5: adding "c" to the duplicate-free stable list ["a", "b"]. -/
theorem AddLevelPath_appends_once_witness :
    (Loading.targetPaths
      (⟨⟨"a", ["a", "b"], "w", []⟩, 0⟩ : Loading.State String) false).Nodup ∧
    (Loading.targetPaths
      (Loading.AddLevelPath (⟨⟨"a", ["a", "b"], "w", []⟩, 0⟩ : Loading.State String)
        "c" false) false).Nodup :=
  ⟨by decide, (AddLevelPath_appends_once _ "c" false).2.2 (by decide)⟩

/-- C6: `AddLevelPath(p, wip)` and `RemoveLevelPath(p, wip)` each call `SaveConfig`
exactly once when the call changes the target list and not at all when the target list
is left as it was. -/
theorem SaveConfig_called_iff_changed {P : Type} [DecidableEq P] (s : Loading.State P)
    (p : P) (wip : Bool) :
    (Loading.AddLevelPath s p wip).saveConfigCalls =
      s.saveConfigCalls +
        (if Loading.targetPaths (Loading.AddLevelPath s p wip) wip = Loading.targetPaths s wip
         then 0 else 1) ∧
    (Loading.RemoveLevelPath s p wip).saveConfigCalls =
      s.saveConfigCalls +
        (if Loading.targetPaths (Loading.RemoveLevelPath s p wip) wip
            = Loading.targetPaths s wip
         then 0 else 1) := by
  constructor
  · rw [targetPaths_AddLevelPath, AddLevelPath_eq]
    by_cases h : p ∈ Loading.targetPaths s wip
    · simp [h]
    · simp [h, Loading.SaveConfig]
      cases wip <;> simp [Loading.setTargetPaths]
  · rw [targetPaths_RemoveLevelPath, RemoveLevelPath_eq]
    by_cases h : p ∈ Loading.targetPaths s wip
    · have hne : ¬ (Loading.targetPaths s wip).erase p = Loading.targetPaths s wip := by
        intro he
        have hl := List.length_erase_of_mem h
        rw [he] at hl
        have hpos : 0 < (Loading.targetPaths s wip).length := List.length_pos_of_mem h
        omega
      simp [h, hne, Loading.SaveConfig]
      cases wip <;> simp [Loading.setTargetPaths]
    · simp [h, List.erase_of_not_mem h]

/-- C7, as the claim states it, fails: with the stable list ["p", "p"], the list still
contains "p" after `RemoveLevelPath("p", false)`. -/
theorem RemoveLevelPath_keeps_second_occurrence :
    "p" ∈ Loading.targetPaths
      (Loading.RemoveLevelPath (⟨⟨"a", ["p", "p"], "w", []⟩, 0⟩ : Loading.State String)
        "p" false) false := by
  decide

/-- C7, amended: `RemoveLevelPath(p, wip)` removes the first occurrence of `p` from the
target list `L`, if there is one; the paths of `L` other than `p` are all still present,
in their original relative order; and when `p` occurs at most once in `L` (as in every
list without duplicates) the target list does not contain `p` afterwards. -/
theorem RemoveLevelPath_removes_first {P : Type} [DecidableEq P] (s : Loading.State P)
    (p : P) (wip : Bool) :
    Loading.targetPaths (Loading.RemoveLevelPath s p wip) wip
      = (Loading.targetPaths s wip).erase p ∧
    (Loading.targetPaths (Loading.RemoveLevelPath s p wip) wip).filter (fun q => decide (q ≠ p))
      = (Loading.targetPaths s wip).filter (fun q => decide (q ≠ p)) ∧
    ((Loading.targetPaths s wip).count p ≤ 1 →
      p ∉ Loading.targetPaths (Loading.RemoveLevelPath s p wip) wip) := by
  rw [targetPaths_RemoveLevelPath]
  refine ⟨rfl, ?_, ?_⟩
  · generalize Loading.targetPaths s wip = L
    induction L with
    | nil => simp
    | cons x xs ih =>
      by_cases hx : x = p
      · simp [hx]
      · have hx2 : ¬ (x == p) = true := by simpa using hx
        have ih2 := ih
        simp only [ne_eq, decide_not] at ih2
        simp [List.erase_cons, hx2, List.filter_cons, hx, ih2]
  · intro hc hmem
    have h1 : 0 < ((Loading.targetPaths s wip).erase p).count p :=
      List.count_pos_iff.mpr hmem
    rw [List.count_erase_self] at h1
    omega

/-- The witness of C7: removing "b" from the stable list ["a", "b", "c"], in which it
occurs once. -/
theorem RemoveLevelPath_removes_first_witness :
    (Loading.targetPaths
      (⟨⟨"a", ["a", "b", "c"], "w", []⟩, 0⟩ : Loading.State String) false).count "b" ≤ 1 ∧
    "b" ∉ Loading.targetPaths
      (Loading.RemoveLevelPath (⟨⟨"a", ["a", "b", "c"], "w", []⟩, 0⟩ : Loading.State String)
        "b" false) false :=
  ⟨by decide, (RemoveLevelPath_removes_first _ "b" false).2.2 (by decide)⟩

/-- C8: `AddLevelPath(p, wip)` and `RemoveLevelPath(p, wip)` leave the root list that
`wip` does not select, the preferred stable path and the preferred WIP path as they
were. -/
theorem LevelPath_functions_frame {P : Type} [DecidableEq P] (s : Loading.State P) (p : P)
    (wip : Bool) :
    (Loading.targetPaths (Loading.AddLevelPath s p wip) (!wip)
        = Loading.targetPaths s (!wip) ∧
      Loading.GetPreferredCustomLevelPath (Loading.AddLevelPath s p wip)
        = Loading.GetPreferredCustomLevelPath s ∧
      Loading.GetPreferredCustomWIPLevelPath (Loading.AddLevelPath s p wip)
        = Loading.GetPreferredCustomWIPLevelPath s) ∧
    (Loading.targetPaths (Loading.RemoveLevelPath s p wip) (!wip)
        = Loading.targetPaths s (!wip) ∧
      Loading.GetPreferredCustomLevelPath (Loading.RemoveLevelPath s p wip)
        = Loading.GetPreferredCustomLevelPath s ∧
      Loading.GetPreferredCustomWIPLevelPath (Loading.RemoveLevelPath s p wip)
        = Loading.GetPreferredCustomWIPLevelPath s) := by
  rw [AddLevelPath_eq, RemoveLevelPath_eq]
  by_cases h : p ∈ Loading.targetPaths s wip
  · rw [if_pos h, if_pos h]
    cases wip <;>
      simp [Loading.targetPaths, Loading.setTargetPaths, Loading.SaveConfig,
        Loading.GetPreferredCustomLevelPath, Loading.GetPreferredCustomWIPLevelPath]
  · rw [if_neg h, if_neg h]
    cases wip <;>
      simp [Loading.targetPaths, Loading.setTargetPaths, Loading.SaveConfig,
        Loading.GetPreferredCustomLevelPath, Loading.GetPreferredCustomWIPLevelPath]

/-! ## The candidate set -/

theorem LevelPathAndWip_less_iff {P : Type} [LinearOrder P] (a b : LevelPathAndWip P) :
    LevelPathAndWip.less a b = true ↔ a.levelPath < b.levelPath := by
  simp [LevelPathAndWip.less, LevelPathAndWip.cmp, compare_lt_iff_lt]

theorem set_insert_mem_paths {P : Type} [LinearOrder P] (v : LevelPathAndWip P)
    (out : List (LevelPathAndWip P)) (p : P) :
    p ∈ (set_insert v out).map LevelPathAndWip.levelPath ↔
      p = v.levelPath ∨ p ∈ out.map LevelPathAndWip.levelPath := by
  induction out with
  | nil => simp [set_insert]
  | cons x xs ih =>
    unfold set_insert
    by_cases h1 : LevelPathAndWip.less v x = true
    · simp [h1]
    · by_cases h2 : LevelPathAndWip.less x v = true
      · rw [if_neg h1, if_pos h2]
        simp only [List.map_cons, List.mem_cons, ih]
        tauto
      · have e : v.levelPath = x.levelPath := by
          rw [LevelPathAndWip_less_iff] at h1 h2
          exact le_antisymm (not_lt.mp h2) (not_lt.mp h1)
        rw [if_neg h1, if_neg h2]
        simp only [List.map_cons, List.mem_cons, e]
        tauto

theorem set_insert_sorted {P : Type} [LinearOrder P] (v : LevelPathAndWip P)
    (out : List (LevelPathAndWip P))
    (hs : (out.map LevelPathAndWip.levelPath).Pairwise (· < ·)) :
    ((set_insert v out).map LevelPathAndWip.levelPath).Pairwise (· < ·) := by
  induction out with
  | nil => simp [set_insert]
  | cons x xs ih =>
    have hs2 := hs
    simp only [List.map_cons, List.pairwise_cons] at hs2
    unfold set_insert
    by_cases h1 : LevelPathAndWip.less v x = true
    · rw [if_pos h1]
      simp only [List.map_cons]
      refine List.Pairwise.cons ?_ hs
      intro q hq
      rw [LevelPathAndWip_less_iff] at h1
      simp only [List.map_cons, List.mem_cons] at hq
      rcases hq with hq | hq
      · rw [hq]; exact h1
      · exact lt_trans h1 (hs2.1 q hq)
    · by_cases h2 : LevelPathAndWip.less x v = true
      · rw [if_neg h1, if_pos h2]
        simp only [List.map_cons]
        refine List.Pairwise.cons ?_ (ih hs2.2)
        intro q hq
        rw [set_insert_mem_paths] at hq
        rcases hq with hq | hq
        · rw [hq]; exact (LevelPathAndWip_less_iff x v).mp h2
        · exact hs2.1 q hq
      · rw [if_neg h1, if_neg h2]
        exact hs

theorem set_insert_mem {P : Type} [LinearOrder P] (v : LevelPathAndWip P)
    (out : List (LevelPathAndWip P))
    (hs : (out.map LevelPathAndWip.levelPath).Pairwise (· < ·)) (e : LevelPathAndWip P) :
    e ∈ set_insert v out ↔
      e ∈ out ∨ (e = v ∧ v.levelPath ∉ out.map LevelPathAndWip.levelPath) := by
  induction out with
  | nil => simp [set_insert]
  | cons x xs ih =>
    have hs2 := hs
    simp only [List.map_cons, List.pairwise_cons] at hs2
    unfold set_insert
    by_cases h1 : LevelPathAndWip.less v x = true
    · have hlt := (LevelPathAndWip_less_iff v x).mp h1
      have hnot : v.levelPath ∉ (x :: xs).map LevelPathAndWip.levelPath := by
        intro hm
        simp only [List.map_cons, List.mem_cons] at hm
        rcases hm with hm | hm
        · exact absurd hlt (by rw [hm]; exact lt_irrefl _)
        · exact absurd (lt_trans hlt (hs2.1 _ hm)) (lt_irrefl _)
      rw [if_pos h1]
      simp only [List.mem_cons]
      constructor
      · rintro (h | h | h)
        · exact Or.inr ⟨h, hnot⟩
        · exact Or.inl (Or.inl h)
        · exact Or.inl (Or.inr h)
      · rintro ((h | h) | ⟨h, _⟩)
        · exact Or.inr (Or.inl h)
        · exact Or.inr (Or.inr h)
        · exact Or.inl h
    · by_cases h2 : LevelPathAndWip.less x v = true
      · have hlt := (LevelPathAndWip_less_iff x v).mp h2
        have hne : ¬ v.levelPath = x.levelPath := fun h => by
          rw [h] at hlt; exact lt_irrefl _ hlt
        rw [if_neg h1, if_pos h2]
        simp only [List.mem_cons, ih hs2.2, List.map_cons, hne, false_or]
        tauto
      · have heq : v.levelPath = x.levelPath := by
          rw [LevelPathAndWip_less_iff] at h1 h2
          exact le_antisymm (not_lt.mp h2) (not_lt.mp h1)
        rw [if_neg h1, if_neg h2]
        simp only [List.mem_cons, List.map_cons, heq, true_or, not_true_eq_false, and_false,
          or_false]

theorem CollectLevels_sorted {P : Type} [LinearOrder P] (candidates : List (LevelPathAndWip P))
    (out : List (LevelPathAndWip P))
    (hs : (out.map LevelPathAndWip.levelPath).Pairwise (· < ·)) :
    ((CollectLevels candidates out).map LevelPathAndWip.levelPath).Pairwise (· < ·) := by
  induction candidates generalizing out with
  | nil => simpa [CollectLevels] using hs
  | cons c cs ih =>
    simp only [CollectLevels, List.foldl_cons]
    exact ih (set_insert c out) (set_insert_sorted c out hs)

theorem CollectLevels_mem_paths {P : Type} [LinearOrder P]
    (candidates : List (LevelPathAndWip P)) (out : List (LevelPathAndWip P)) (p : P) :
    p ∈ (CollectLevels candidates out).map LevelPathAndWip.levelPath ↔
      p ∈ out.map LevelPathAndWip.levelPath ∨
      p ∈ candidates.map LevelPathAndWip.levelPath := by
  induction candidates generalizing out with
  | nil => simp [CollectLevels]
  | cons c cs ih =>
    have h := ih (set_insert c out)
    simp only [CollectLevels, List.foldl_cons] at h ⊢
    rw [h, set_insert_mem_paths]
    simp only [List.map_cons, List.mem_cons]
    tauto

theorem CollectLevels_first_seen {P : Type} [LinearOrder P]
    (candidates : List (LevelPathAndWip P)) (out : List (LevelPathAndWip P))
    (hs : (out.map LevelPathAndWip.levelPath).Pairwise (· < ·)) (e : LevelPathAndWip P)
    (he : e ∈ CollectLevels candidates out) :
    e ∈ out ∨
      (e.levelPath ∉ out.map LevelPathAndWip.levelPath ∧
        candidates.find? (fun c => decide (c.levelPath = e.levelPath)) = some e) := by
  induction candidates generalizing out with
  | nil => left; simpa [CollectLevels] using he
  | cons c cs ih =>
    simp only [CollectLevels, List.foldl_cons] at he
    rcases ih (set_insert c out) (set_insert_sorted c out hs) he with h | ⟨h1, h2⟩
    · rw [set_insert_mem c out hs] at h
      rcases h with h | ⟨h3, h4⟩
      · exact Or.inl h
      · right
        subst h3
        exact ⟨h4, by simp⟩
    · rw [set_insert_mem_paths] at h1
      have hne : ¬ c.levelPath = e.levelPath := fun h => h1 (Or.inl h.symm)
      right
      refine ⟨fun h => h1 (Or.inr h), ?_⟩
      simp [List.find?_cons, hne, h2]

/-- C3: when the candidates are inserted in scan order into the empty set, the paths of
the resulting set, in iteration order, are strictly ascending and so without
duplicates; a path is in the set exactly when some candidate has it; and every entry
of the set is the first candidate, in scan order, that has its path, so it carries the
`isWip` tag of that first candidate. -/
theorem CollectLevels_dedup_first_seen {P : Type} [LinearOrder P]
    (candidates : List (LevelPathAndWip P)) :
    ((CollectLevels candidates []).map LevelPathAndWip.levelPath).Sorted (· < ·) ∧
    ((CollectLevels candidates []).map LevelPathAndWip.levelPath).Nodup ∧
    (∀ p : P, p ∈ (CollectLevels candidates []).map LevelPathAndWip.levelPath ↔
      p ∈ candidates.map LevelPathAndWip.levelPath) ∧
    (∀ e : LevelPathAndWip P, e ∈ CollectLevels candidates [] →
      candidates.find? (fun c => decide (c.levelPath = e.levelPath)) = some e) := by
  have hs : ((CollectLevels candidates []).map LevelPathAndWip.levelPath).Pairwise (· < ·) :=
    CollectLevels_sorted candidates [] (by simp)
  refine ⟨hs, ?_, ?_, ?_⟩
  · exact hs.imp (fun h => ne_of_lt h)
  · intro p
    rw [CollectLevels_mem_paths]
    simp
  · intro e he
    rcases CollectLevels_first_seen candidates [] (by simp) e he with h | ⟨_, h⟩
    · simp at h
    · exact h

/-- The witness of C3: the path 3 is met first as a WIP candidate and then as a stable
one; the entry kept for it is the WIP one. -/
theorem CollectLevels_dedup_first_seen_witness :
    (⟨3, true⟩ : LevelPathAndWip Nat) ∈
        CollectLevels [⟨3, true⟩, ⟨1, false⟩, ⟨3, false⟩, ⟨2, true⟩] [] ∧
    List.find? (fun c => decide (c.levelPath = 3))
        ([⟨3, true⟩, ⟨1, false⟩, ⟨3, false⟩, ⟨2, true⟩] : List (LevelPathAndWip Nat))
      = some ⟨3, true⟩ :=
  ⟨by decide,
   (CollectLevels_dedup_first_seen
      ([⟨3, true⟩, ⟨1, false⟩, ⟨3, false⟩, ⟨2, true⟩] : List (LevelPathAndWip Nat))).2.2.2
     ⟨3, true⟩ (by decide)⟩

/-! ## The identifier of a loaded level -/

/-- C9: a successfully loaded level whose content hash is `h` has the id
`CUSTOM_LEVEL_PREFIX_ID` followed by `h`, and `CUSTOM_LEVEL_PREFIX_ID` is exactly
"custom_level_". -/
theorem LoadCustomPreviewBeatmapLevel_id (levelPath : String) (isWip saveDataValid : Bool)
    (contentHash : Option String) (sanitizedPath : String) (e : LoadedEntry) (h : String)
    (hok : LoadCustomPreviewBeatmapLevel levelPath isWip saveDataValid contentHash sanitizedPath
      = Except.ok e)
    (hh : e.hash = some h) :
    e.id = CUSTOM_LEVEL_PREFIX_ID ++ h ∧ CUSTOM_LEVEL_PREFIX_ID = "custom_level_" := by
  refine ⟨?_, rfl⟩
  unfold LoadCustomPreviewBeatmapLevel at hok
  cases saveDataValid with
  | false => simp at hok
  | true =>
    cases contentHash with
    | none =>
      simp only [if_true, Except.ok.injEq] at hok
      subst hok
      simp at hh
    | some c =>
      simp only [if_true, Except.ok.injEq] at hok
      subst hok
      simp only [Option.some.injEq] at hh
      rw [hh]

/-- The witness of C9: the level at "/songs/A" hashing to "h1" is loaded with the id
"custom_level_h1". -/
theorem LoadCustomPreviewBeatmapLevel_id_witness :
    LoadCustomPreviewBeatmapLevel "/songs/A" false true (some "h1") "songs_A"
      = Except.ok ⟨"custom_level_h1", some "h1", false, "/songs/A"⟩ ∧
    (⟨"custom_level_h1", some "h1", false, "/songs/A"⟩ : LoadedEntry).id
      = CUSTOM_LEVEL_PREFIX_ID ++ "h1" ∧
    CUSTOM_LEVEL_PREFIX_ID = "custom_level_" :=
  ⟨rfl,
   LoadCustomPreviewBeatmapLevel_id "/songs/A" false true (some "h1") "songs_A"
     ⟨"custom_level_h1", some "h1", false, "/songs/A"⟩ "h1" rfl rfl⟩

/-! ## Coalescing of refreshes -/

theorem runEvents_append (pre post : List RefreshEvent) :
    runEvents (pre ++ post) = post.foldl RefreshEvent.apply (runEvents pre) := by
  simp [runEvents, List.foldl_append]

theorem refreshesRunning_eq (events : List RefreshEvent) :
    (runEvents events).refreshesRunning = if (runEvents events).inProgress then 1 else 0 := by
  induction events using List.reverseRecOn with
  | nil => simp [runEvents, RefreshState.idle]
  | append_singleton evs ev ih =>
    rw [runEvents_append]
    simp only [List.foldl_cons, List.foldl_nil]
    generalize runEvents evs = s at ih
    cases ev with
    | call f =>
      cases hp : s.inProgress
      · simp [RefreshEvent.apply, RefreshSongs, hp] at ih ⊢
        exact ih
      · simp [RefreshEvent.apply, RefreshSongs, hp] at ih ⊢
        exact ih
    | settled =>
      cases hp : s.inProgress
      · simp [RefreshEvent.apply, settle, hp] at ih ⊢
        exact ih
      · simp [RefreshEvent.apply, settle, hp] at ih ⊢
        omega

theorem calls_while_in_flight (s : RefreshState) (hs : s.inProgress = true)
    (mid : List RefreshEvent) (hmid : ∀ ev ∈ mid, ev ≠ RefreshEvent.settled) :
    mid.foldl RefreshEvent.apply s = s := by
  induction mid with
  | nil => rfl
  | cons ev evs ih =>
    have hev : RefreshEvent.apply s ev = s := by
      cases ev with
      | call f => simp [RefreshEvent.apply, RefreshSongs, hs]
      | settled => exact absurd rfl (hmid _ (List.mem_cons_self _ _))
    simp only [List.foldl_cons, hev]
    exact ih (fun ev h => hmid ev (List.mem_cons_of_mem _ h))

/-- C10: at every moment at most one refresh is running. And when a call of
`RefreshSongs` starts a refresh (the loader being idle after the events `pre`), then
after any further calls `mid` made before that refresh settles, a call of
`RefreshSongs` leaves the state as it is, so that it starts no refresh and no scan (the
number of refreshes started is still one more than before the starting call), and it
returns the same completion handle as the call that started the refresh in flight. -/
theorem RefreshSongs_coalesces (pre mid : List RefreshEvent) (f g : Bool)
    (hidle : (runEvents pre).inProgress = false)
    (hmid : ∀ ev ∈ mid, ev ≠ RefreshEvent.settled) :
    (∀ events : List RefreshEvent, (runEvents events).refreshesRunning ≤ 1) ∧
    (runEvents (pre ++ RefreshEvent.call f :: mid)).inProgress = true ∧
    (RefreshSongs (runEvents (pre ++ RefreshEvent.call f :: mid)) g).1
      = runEvents (pre ++ RefreshEvent.call f :: mid) ∧
    (RefreshSongs (runEvents (pre ++ RefreshEvent.call f :: mid)) g).2
      = (RefreshSongs (runEvents pre) f).2 ∧
    (RefreshSongs (runEvents (pre ++ RefreshEvent.call f :: mid)) g).2
      = (runEvents (pre ++ RefreshEvent.call f :: mid))._currentlyLoadingFuture ∧
    (RefreshSongs (runEvents (pre ++ RefreshEvent.call f :: mid)) g).1.refreshesStarted
      = (runEvents pre).refreshesStarted + 1 := by
  refine ⟨?_, ?_⟩
  · intro events
    rw [refreshesRunning_eq]
    split <;> omega
  · have hstart : (RefreshEvent.apply (runEvents pre) (RefreshEvent.call f)).inProgress = true := by
      simp [RefreshEvent.apply, RefreshSongs, hidle]
    have hrun : runEvents (pre ++ RefreshEvent.call f :: mid)
        = RefreshEvent.apply (runEvents pre) (RefreshEvent.call f) := by
      rw [runEvents_append, List.foldl_cons]
      exact calls_while_in_flight _ hstart mid hmid
    rw [hrun]
    generalize runEvents pre = s at hidle hstart
    simp [RefreshEvent.apply, RefreshSongs, hidle]

/-- The witness of C10: a refresh is started, two more calls are made while it is in
flight, and a third call then returns the handle of the first. -/
theorem RefreshSongs_coalesces_witness :
    (RefreshSongs (runEvents ([] ++ RefreshEvent.call true ::
        [RefreshEvent.call false, RefreshEvent.call true])) false).2
      = (RefreshSongs (runEvents []) true).2 :=
  (RefreshSongs_coalesces [] [RefreshEvent.call false, RefreshEvent.call true] true false
    (by decide) (by decide)).2.2.2.1


/-! ## Capabilities: the registry under sequences of calls -/

theorem RegisterCapability_registered (s : Capabilities.State) (c : String) :
    (Capabilities.RegisterCapability s c)._registeredCapabilities =
      if Capabilities.sanitize c ∈ s._registeredCapabilities then s._registeredCapabilities
      else s._registeredCapabilities ++ [Capabilities.sanitize c] := by
  unfold Capabilities.RegisterCapability
  by_cases h : Capabilities.sanitize c ∈ s._registeredCapabilities
  · have h2 : ¬ find s._registeredCapabilities (Capabilities.sanitize c)
        = s._registeredCapabilities.length := by
      rw [find_eq_length_iff]; simpa using h
    simp [h, h2]
  · have h2 : find s._registeredCapabilities (Capabilities.sanitize c)
        = s._registeredCapabilities.length := by
      rw [find_eq_length_iff]; exact h
    simp [h, h2, emplace_back]

theorem UnregisterCapability_registered (s : Capabilities.State) (c : String) :
    (Capabilities.UnregisterCapability s c)._registeredCapabilities =
      s._registeredCapabilities.erase (Capabilities.sanitize c) := by
  unfold Capabilities.UnregisterCapability
  simp only [erase_find]
  by_cases h : Capabilities.sanitize c ∈ s._registeredCapabilities
  · have h2 : ¬ find s._registeredCapabilities (Capabilities.sanitize c)
        = s._registeredCapabilities.length := by
      rw [find_eq_length_iff]; simpa using h
    simp [h2]
  · have h2 : find s._registeredCapabilities (Capabilities.sanitize c)
        = s._registeredCapabilities.length := by
      rw [find_eq_length_iff]; exact h
    simp [h2, List.erase_of_not_mem h]

theorem IsCapabilityRegistered_eq (s : Capabilities.State) (c : String) :
    Capabilities.IsCapabilityRegistered s c =
      decide (Capabilities.sanitize c ∈ s._registeredCapabilities) := by
  unfold Capabilities.IsCapabilityRegistered
  by_cases h : Capabilities.sanitize c ∈ s._registeredCapabilities
  · have h2 : ¬ find s._registeredCapabilities (Capabilities.sanitize c)
        = s._registeredCapabilities.length := by
      rw [find_eq_length_iff]; simpa using h
    simp [h, h2]
  · have h2 : find s._registeredCapabilities (Capabilities.sanitize c)
        = s._registeredCapabilities.length := by
      rw [find_eq_length_iff]; exact h
    simp [h, h2]

theorem Capabilities_apply_nodup (s : Capabilities.State) (call : Capabilities.Call)
    (hs : s._registeredCapabilities.Nodup) :
    (Capabilities.Call.apply s call)._registeredCapabilities.Nodup := by
  cases call with
  | Register c =>
    simp only [Capabilities.Call.apply, RegisterCapability_registered]
    by_cases h : Capabilities.sanitize c ∈ s._registeredCapabilities
    · simpa [h] using hs
    · simp only [h, if_false]
      exact List.Nodup.append hs (List.nodup_singleton _) (by simpa using h)
  | Unregister c =>
    simp only [Capabilities.Call.apply, UnregisterCapability_registered]
    exact List.Nodup.erase _ hs

theorem Capabilities_foldl_nodup (calls : List Capabilities.Call) (s : Capabilities.State)
    (hs : s._registeredCapabilities.Nodup) :
    (calls.foldl Capabilities.Call.apply s)._registeredCapabilities.Nodup := by
  induction calls generalizing s with
  | nil => exact hs
  | cons call rest ih =>
    simp only [List.foldl_cons]
    exact ih _ (Capabilities_apply_nodup s call hs)

/-- C11: after every sequence of `RegisterCapability` and `UnregisterCapability` calls
made from the empty registry, the registry holds no string twice; and in the state so
reached, for every capability `c`, `IsCapabilityRegistered(c)` is false right after
`UnregisterCapability(c)` and true right after `RegisterCapability(c)`. -/
theorem registry_never_holds_twice (calls : List Capabilities.Call) (c : String) :
    (Capabilities.runCalls calls)._registeredCapabilities.Nodup ∧
    Capabilities.IsCapabilityRegistered
      (Capabilities.UnregisterCapability (Capabilities.runCalls calls) c) c = false ∧
    Capabilities.IsCapabilityRegistered
      (Capabilities.RegisterCapability (Capabilities.runCalls calls) c) c = true := by
  have hnd : (Capabilities.runCalls calls)._registeredCapabilities.Nodup :=
    Capabilities_foldl_nodup calls _ List.nodup_nil
  refine ⟨hnd, ?_, ?_⟩
  · rw [IsCapabilityRegistered_eq, UnregisterCapability_registered]
    simpa using List.Nodup.not_mem_erase hnd
  · rw [IsCapabilityRegistered_eq, RegisterCapability_registered]
    by_cases h : Capabilities.sanitize c ∈ (Capabilities.runCalls calls)._registeredCapabilities
    · simp [h]
    · simp [h]

/-! ## Capabilities: `sanitize` -/

theorem Char_toNat_ofNat (n : Nat) (h : n < 55296) : (Char.ofNat n).toNat = n := by
  have hv : n.isValidChar := Or.inl h
  unfold Char.ofNat
  rw [dif_pos hv]
  rfl

theorem Char_eq_of_toNat_eq {c d : Char} (h : c.toNat = d.toNat) : c = d := by
  rw [← Char.ofNat_toNat c, ← Char.ofNat_toNat d, h]

theorem Char_isUpper_iff (c : Char) : c.isUpper = true ↔ 65 ≤ c.toNat ∧ c.toNat ≤ 90 := by
  simp only [Char.isUpper, Bool.and_eq_true, decide_eq_true_eq]
  exact Iff.rfl

theorem toNat_tolower (c : Char) :
    (Capabilities.tolower c).toNat =
      if 65 ≤ c.toNat ∧ c.toNat ≤ 90 then c.toNat + 32 else c.toNat := by
  unfold Capabilities.tolower
  have hiff : ('A' ≤ c ∧ c ≤ 'Z') ↔ (65 ≤ c.toNat ∧ c.toNat ≤ 90) := Iff.rfl
  by_cases h : 65 ≤ c.toNat ∧ c.toNat ≤ 90
  · rw [if_pos (hiff.mpr h), if_pos h]
    exact Char_toNat_ofNat _ (by omega)
  · rw [if_neg (fun h2 => h (hiff.mp h2)), if_neg h]

theorem tolower_sameLetter {c d : Char} (h : Capabilities.sameLetter c d) :
    Capabilities.tolower c = Capabilities.tolower d := by
  apply Char_eq_of_toNat_eq
  rw [toNat_tolower, toNat_tolower]
  rcases h with h | ⟨h1, h2⟩ | ⟨h1, h2⟩
  · rw [h]
  · rw [Char_isUpper_iff] at h1
    split_ifs <;> omega
  · rw [Char_isUpper_iff] at h1
    split_ifs <;> omega

theorem Char_eq_space_iff (c : Char) : c = ' ' ↔ c.toNat = 32 :=
  ⟨fun h => by rw [h]; rfl, fun h => Char_eq_of_toNat_eq (by rw [h]; rfl)⟩

theorem sameLetter_space {c d : Char} (h : Capabilities.sameLetter c d) :
    c = ' ' ↔ d = ' ' := by
  rw [Char_eq_space_iff, Char_eq_space_iff]
  rcases h with h | ⟨h1, h2⟩ | ⟨h1, h2⟩
  · rw [h]
  · rw [Char_isUpper_iff] at h1
    omega
  · rw [Char_isUpper_iff] at h1
    omega

theorem tolower_eq_space_iff (c : Char) : Capabilities.tolower c = ' ' ↔ c = ' ' := by
  rw [Char_eq_space_iff, Char_eq_space_iff, toNat_tolower]
  split_ifs <;> omega

theorem tolower_tolower (c : Char) :
    Capabilities.tolower (Capabilities.tolower c) = Capabilities.tolower c := by
  apply Char_eq_of_toNat_eq
  rw [toNat_tolower (Capabilities.tolower c), toNat_tolower c]
  split_ifs <;> omega

theorem foldl_sanitizeStep (l acc : List Char) :
    l.foldl Capabilities.sanitizeStep acc =
      acc ++ (l.filter (fun c => decide (c ≠ ' '))).map Capabilities.tolower := by
  induction l generalizing acc with
  | nil => simp
  | cons c cs ih =>
    by_cases hc : c = ' '
    · simp [List.foldl_cons, Capabilities.sanitizeStep, hc, ih]
    · simp [List.foldl_cons, Capabilities.sanitizeStep, hc, ih]

theorem sanitize_data (a : String) :
    (Capabilities.sanitize a).data =
      (a.data.filter (fun c => decide (c ≠ ' '))).map Capabilities.tolower := by
  simp [Capabilities.sanitize, foldl_sanitizeStep]

theorem sanitized_eq_of_differ {as bs : List Char}
    (h : Capabilities.DifferOnlyInSpacesAndCase as bs) :
    (as.filter (fun c => decide (c ≠ ' '))).map Capabilities.tolower =
      (bs.filter (fun c => decide (c ≠ ' '))).map Capabilities.tolower := by
  induction h with
  | done => rfl
  | spaceLeft _ ih => simpa using ih
  | spaceRight _ ih => simpa using ih
  | @letter c d as bs hcd _ ih =>
    by_cases hc : c = ' '
    · have hd : d = ' ' := (sameLetter_space hcd).mp hc
      simpa [hc, hd] using ih
    · have hd : ¬ d = ' ' := fun h => hc ((sameLetter_space hcd).mpr h)
      simp only [List.filter_cons, ne_eq, hc, hd, not_false_eq_true, decide_True, if_true,
        List.map_cons, tolower_sameLetter hcd, ih]

theorem sanitize_sanitize (a : String) :
    Capabilities.sanitize (Capabilities.sanitize a) = Capabilities.sanitize a := by
  have hd : (Capabilities.sanitize (Capabilities.sanitize a)).data
      = (Capabilities.sanitize a).data := by
    rw [sanitize_data (Capabilities.sanitize a), sanitize_data a]
    generalize a.data = l
    induction l with
    | nil => rfl
    | cons c cs ih =>
      by_cases hc : c = ' '
      · simpa [hc] using ih
      · have hl : ¬ Capabilities.tolower c = ' ' := fun h => hc ((tolower_eq_space_iff c).mp h)
        simp only [List.filter_cons, ne_eq, hc, hl, not_false_eq_true, decide_True, if_true,
          List.map_cons, tolower_tolower, ih]
  exact String.ext hd

/-- C12: when the capability strings `a` and `b` differ only in space characters and in
the case of ASCII letters, `sanitize(a) = sanitize(b)`; `sanitize` is idempotent on every
string; in every registry state `IsCapabilityRegistered(a)` and
`IsCapabilityRegistered(b)` agree; and in every registry state `RegisterCapability(b)`
after `RegisterCapability(a)` changes nothing, so that the two calls together append at
most the one entry `sanitize(a)`, which after them is held exactly once by every
registry reached from the empty one. -/
theorem sanitize_identifies_variants (a b : String)
    (h : Capabilities.DifferOnlyInSpacesAndCase a.data b.data) :
    Capabilities.sanitize a = Capabilities.sanitize b ∧
    (∀ x : String, Capabilities.sanitize (Capabilities.sanitize x) = Capabilities.sanitize x) ∧
    (∀ s : Capabilities.State,
      Capabilities.IsCapabilityRegistered s a = Capabilities.IsCapabilityRegistered s b) ∧
    (∀ s : Capabilities.State,
      Capabilities.RegisterCapability (Capabilities.RegisterCapability s a) b
        = Capabilities.RegisterCapability s a) ∧
    (∀ s : Capabilities.State,
      (Capabilities.RegisterCapability
          (Capabilities.RegisterCapability s a) b)._registeredCapabilities =
        if Capabilities.sanitize a ∈ s._registeredCapabilities then s._registeredCapabilities
        else s._registeredCapabilities ++ [Capabilities.sanitize a]) ∧
    (∀ calls : List Capabilities.Call,
      (Capabilities.RegisterCapability
          (Capabilities.RegisterCapability (Capabilities.runCalls calls) a)
          b)._registeredCapabilities.count (Capabilities.sanitize a) = 1) := by
  have hab : Capabilities.sanitize a = Capabilities.sanitize b :=
    String.ext (by rw [sanitize_data, sanitize_data]; exact sanitized_eq_of_differ h)
  have hmem : ∀ s : Capabilities.State,
      Capabilities.sanitize a ∈
        (Capabilities.RegisterCapability s a)._registeredCapabilities := by
    intro s
    rw [RegisterCapability_registered]
    by_cases hm : Capabilities.sanitize a ∈ s._registeredCapabilities
    · simp [hm]
    · simp [hm]
  have hnoop : ∀ s : Capabilities.State,
      Capabilities.RegisterCapability (Capabilities.RegisterCapability s a) b
        = Capabilities.RegisterCapability s a := by
    intro s
    have hb : Capabilities.sanitize b ∈
        (Capabilities.RegisterCapability s a)._registeredCapabilities := hab ▸ hmem s
    have h2 : ¬ find (Capabilities.RegisterCapability s a)._registeredCapabilities
        (Capabilities.sanitize b)
          = (Capabilities.RegisterCapability s a)._registeredCapabilities.length := by
      rw [find_eq_length_iff]; simpa using hb
    generalize Capabilities.RegisterCapability s a = t at h2
    simp [Capabilities.RegisterCapability, h2]
  refine ⟨hab, sanitize_sanitize, ?_, hnoop, ?_, ?_⟩
  · intro s
    rw [IsCapabilityRegistered_eq, IsCapabilityRegistered_eq, hab]
  · intro s
    rw [hnoop, RegisterCapability_registered]
  · intro calls
    rw [hnoop]
    have hnd : (Capabilities.RegisterCapability (Capabilities.runCalls calls)
        a)._registeredCapabilities.Nodup :=
      Capabilities_apply_nodup _ (Capabilities.Call.Register a)
        (Capabilities_foldl_nodup calls _ List.nodup_nil)
    exact List.count_eq_one_of_mem hnd (hmem _)

/-- The witness of C12: "A b" and "ab" differ only in a space and in the case of the
letter a, and both are sanitized to the same string. -/
theorem sanitize_identifies_variants_witness :
    Capabilities.DifferOnlyInSpacesAndCase "A b".data "ab".data ∧
    Capabilities.sanitize "A b" = Capabilities.sanitize "ab" ∧
    Capabilities.sanitize "A b" = "ab" :=
  have hd : Capabilities.DifferOnlyInSpacesAndCase "A b".data "ab".data :=
    Capabilities.DifferOnlyInSpacesAndCase.letter
      (Or.inr (Or.inl ⟨by decide, by decide⟩))
      (Capabilities.DifferOnlyInSpacesAndCase.spaceLeft
        (Capabilities.DifferOnlyInSpacesAndCase.letter (Or.inl rfl)
          Capabilities.DifferOnlyInSpacesAndCase.done))
  ⟨hd, (sanitize_identifies_variants "A b" "ab" hd).1, by decide⟩

/-! ## PlayButton -/

theorem find_if_eq_length_iff {α : Type} (pred : α → Bool) (v : List α) :
    find_if pred v = v.length ↔ ∀ x ∈ v, pred x = false := by
  induction v with
  | nil => simp [find_if]
  | cons x xs ih =>
    by_cases hx : pred x = true
    · simp [find_if, hx]
    · simp [find_if, hx, ih]

theorem map_modID_erase_find_if (v : List PlayButton.PlayButtonDisablingModInfo) (m : String) :
    (erase v (find_if (fun x => decide (x.modID = m)) v)).map
        PlayButton.PlayButtonDisablingModInfo.modID
      = (v.map PlayButton.PlayButtonDisablingModInfo.modID).erase m := by
  unfold erase
  induction v with
  | nil => simp [find_if]
  | cons x xs ih =>
    by_cases hx : x.modID = m
    · simp [find_if, hx]
    · have hx2 : ¬ (x.modID == m) = true := by simpa using hx
      simp [find_if, hx, List.erase_cons, hx2, ih]

theorem find_if_modID_eq_length_iff (v : List PlayButton.PlayButtonDisablingModInfo)
    (m : String) :
    find_if (fun x => decide (x.modID = m)) v = v.length ↔
      m ∉ v.map PlayButton.PlayButtonDisablingModInfo.modID := by
  rw [find_if_eq_length_iff]
  simp only [decide_eq_false_iff_not, List.mem_map, not_exists, not_and]

theorem DisablePlayButton_of_mem (s : PlayButton.State) (m r : String)
    (h : m ∈ s._disablingModInfos.map PlayButton.PlayButtonDisablingModInfo.modID) :
    PlayButton.DisablePlayButton s m r = s := by
  have h2 : ¬ find_if (fun x => decide (x.modID = m)) s._disablingModInfos
      = s._disablingModInfos.length := by
    rw [find_if_modID_eq_length_iff]; simpa using h
  simp [PlayButton.DisablePlayButton, h2]

theorem DisablePlayButton_of_not_mem (s : PlayButton.State) (m r : String)
    (h : m ∉ s._disablingModInfos.map PlayButton.PlayButtonDisablingModInfo.modID) :
    (PlayButton.DisablePlayButton s m r)._disablingModInfos
      = s._disablingModInfos ++ [{ modID := m, reason := r }] := by
  have h2 : find_if (fun x => decide (x.modID = m)) s._disablingModInfos
      = s._disablingModInfos.length := by
    rw [find_if_modID_eq_length_iff]; exact h
  simp [PlayButton.DisablePlayButton, h2, emplace_back]

theorem EnablePlayButton_modIDs (s : PlayButton.State) (m : String) :
    (PlayButton.EnablePlayButton s m)._disablingModInfos.map
        PlayButton.PlayButtonDisablingModInfo.modID
      = (s._disablingModInfos.map PlayButton.PlayButtonDisablingModInfo.modID).erase m := by
  by_cases h : m ∈ s._disablingModInfos.map PlayButton.PlayButtonDisablingModInfo.modID
  · have h2 : ¬ find_if (fun x => decide (x.modID = m)) s._disablingModInfos
        = s._disablingModInfos.length := by
      rw [find_if_modID_eq_length_iff]; simpa using h
    simp only [PlayButton.EnablePlayButton, ne_eq, h2, not_false_eq_true, if_true]
    exact map_modID_erase_find_if _ m
  · have h2 : find_if (fun x => decide (x.modID = m)) s._disablingModInfos
        = s._disablingModInfos.length := by
      rw [find_if_modID_eq_length_iff]; exact h
    simp only [PlayButton.EnablePlayButton, ne_eq, h2, not_true_eq_false, if_false]
    exact (List.erase_of_not_mem h).symm

theorem PlayButton_apply_nodup (s : PlayButton.State) (call : PlayButton.Call)
    (hs : (s._disablingModInfos.map PlayButton.PlayButtonDisablingModInfo.modID).Nodup) :
    ((PlayButton.Call.apply s call)._disablingModInfos.map
      PlayButton.PlayButtonDisablingModInfo.modID).Nodup := by
  cases call with
  | Disable m r =>
    simp only [PlayButton.Call.apply]
    by_cases h : m ∈ s._disablingModInfos.map PlayButton.PlayButtonDisablingModInfo.modID
    · rw [DisablePlayButton_of_mem s m r h]; exact hs
    · rw [DisablePlayButton_of_not_mem s m r h, List.map_append]
      exact List.Nodup.append hs (List.nodup_singleton _) (by simpa using h)
  | Enable m =>
    simp only [PlayButton.Call.apply, EnablePlayButton_modIDs]
    exact List.Nodup.erase _ hs

theorem PlayButton_foldl_nodup (calls : List PlayButton.Call) (s : PlayButton.State)
    (hs : (s._disablingModInfos.map PlayButton.PlayButtonDisablingModInfo.modID).Nodup) :
    ((calls.foldl PlayButton.Call.apply s)._disablingModInfos.map
      PlayButton.PlayButtonDisablingModInfo.modID).Nodup := by
  induction calls generalizing s with
  | nil => exact hs
  | cons call rest ih =>
    simp only [List.foldl_cons]
    exact ih _ (PlayButton_apply_nodup s call hs)

/-- C13: after every sequence of `DisablePlayButton` and `EnablePlayButton` calls made
from the empty list, the list of disabling mod infos holds at most one entry per modID;
in the state so reached a `DisablePlayButton` for a modID that is already present leaves
the list, the stored reason included, and the event log as they are (so also a second
`DisablePlayButton` right after a first one), and after `EnablePlayButton(m)` no entry
with modID `m` remains. -/
theorem disabling_mod_infos_unique (calls : List PlayButton.Call) (m r r2 : String) :
    ((PlayButton.runCalls calls)._disablingModInfos.map
      PlayButton.PlayButtonDisablingModInfo.modID).Nodup ∧
    (m ∈ (PlayButton.runCalls calls)._disablingModInfos.map
        PlayButton.PlayButtonDisablingModInfo.modID →
      PlayButton.DisablePlayButton (PlayButton.runCalls calls) m r
        = PlayButton.runCalls calls) ∧
    PlayButton.DisablePlayButton
        (PlayButton.DisablePlayButton (PlayButton.runCalls calls) m r) m r2
      = PlayButton.DisablePlayButton (PlayButton.runCalls calls) m r ∧
    (∀ x ∈ (PlayButton.EnablePlayButton (PlayButton.runCalls calls) m)._disablingModInfos,
      x.modID ≠ m) := by
  have hnd : ((PlayButton.runCalls calls)._disablingModInfos.map
      PlayButton.PlayButtonDisablingModInfo.modID).Nodup :=
    PlayButton_foldl_nodup calls _ (by simp)
  refine ⟨hnd, fun h => DisablePlayButton_of_mem _ m r h, ?_, ?_⟩
  · apply DisablePlayButton_of_mem
    by_cases h : m ∈ (PlayButton.runCalls calls)._disablingModInfos.map
        PlayButton.PlayButtonDisablingModInfo.modID
    · rw [DisablePlayButton_of_mem _ m r h]; exact h
    · rw [DisablePlayButton_of_not_mem _ m r h]; simp
  · intro x hx he
    have hmem : m ∈ (PlayButton.EnablePlayButton
        (PlayButton.runCalls calls) m)._disablingModInfos.map
        PlayButton.PlayButtonDisablingModInfo.modID :=
      List.mem_map.mpr ⟨x, hx, he⟩
    rw [EnablePlayButton_modIDs] at hmem
    exact List.Nodup.not_mem_erase hnd hmem

/-- The witness of C13: the mod "m" has disabled the play button with the reason "r1";
a second `DisablePlayButton("m", "r2")` leaves the state as it is. -/
theorem disabling_mod_infos_unique_witness :
    "m" ∈ (PlayButton.runCalls [PlayButton.Call.Disable "m" "r1"])._disablingModInfos.map
        PlayButton.PlayButtonDisablingModInfo.modID ∧
    PlayButton.DisablePlayButton (PlayButton.runCalls [PlayButton.Call.Disable "m" "r1"])
        "m" "r2"
      = PlayButton.runCalls [PlayButton.Call.Disable "m" "r1"] :=
  ⟨by decide,
   (disabling_mod_infos_unique [PlayButton.Call.Disable "m" "r1"] "m" "r2" "r2").2.1
     (by decide)⟩
